import Mathlib

/-!
# Verification of the beads `migrate-hash-ids` command and identity subsystem

Shallow embedding of the Go sources of the beads repository:

* `cmd/bd/migrate_hash_ids.go` — hash-ID migration: `generateHashIDForIssue`,
  `sha256Hash`, `replaceIDReferences`, `isHashID`, `migrateToHashIDs`, and the
  command driver (`migrateHashIDsCmd.Run`).
* `cmd/bd/reopen.go` — the reopen command (status update semantics).
* Spec-modelled parts (their implementation is not among the given sources;
  only tests/docs are): the adaptive hash-ID allocator, the per-parent child
  counter (`getNextChildNumber`), the journal-file watcher's debouncer, and
  the store's `UpdateIssue` / `UpdateIssueID` operations.

Machine integers are modelled as `Nat` with explicit `% 2^32` where the Go
code uses `uint32` arithmetic (inside SHA-256); `int64` timestamps are `Int`.
-/

namespace Beads

/-! ## 32-bit words as naturals, reduced mod 2^32 -/

/-- `2^32`, the modulus of Go's `uint32` arithmetic used by SHA-256. -/
def M32 : Nat := 4294967296

/-- Addition of 32-bit words (Go `+` on `uint32`). -/
def wadd (a b : Nat) : Nat := (a + b) % M32

/-- Bitwise complement of a 32-bit word. -/
def wnot (a : Nat) : Nat := Nat.xor a (M32 - 1)

/-- Right rotation of a 32-bit word by `n` bits. -/
def rotr (n a : Nat) : Nat :=
  Nat.lor (Nat.shiftRight a n) (Nat.shiftLeft a (32 - n) % M32)

/-- Logical right shift of a 32-bit word. -/
def shr (n a : Nat) : Nat := Nat.shiftRight a n

/-! ## SHA-256 (FIPS 180-4), as used by Go `crypto/sha256` -/

/-- The SHA-256 round constants K₀…K₆₃ (FIPS 180-4, written in decimal). -/
def sha256K : List Nat :=
  [1116352408, 1899447441, 3049323471, 3921009573, 961987163,
   1508970993, 2453635748, 2870763221, 3624381080, 310598401,
   607225278, 1426881987, 1925078388, 2162078206, 2614888103,
   3248222580, 3835390401, 4022224774, 264347078, 604807628,
   770255983, 1249150122, 1555081692, 1996064986, 2554220882,
   2821834349, 2952996808, 3210313671, 3336571891, 3584528711,
   113926993, 338241895, 666307205, 773529912, 1294757372,
   1396182291, 1695183700, 1986661051, 2177026350, 2456956037,
   2730485921, 2820302411, 3259730800, 3345764771, 3516065817,
   3600352804, 4094571909, 275423344, 430227734, 506948616,
   659060556, 883997877, 958139571, 1322822218, 1537002063,
   1747873779, 1955562222, 2024104815, 2227730452, 2361852424,
   2428436474, 2756734187, 3204031479, 3329325298]

/-- The SHA-256 initial hash value H⁽⁰⁾ (FIPS 180-4, in decimal). -/
def sha256H0 : List Nat :=
  [1779033703, 3144134277, 1013904242, 2773480762, 1359893119,
   2600822924, 528734635, 1541459225]

/-- σ₀ message-schedule function. -/
def ssig0 (x : Nat) : Nat := Nat.xor (rotr 7 x) (Nat.xor (rotr 18 x) (shr 3 x))

/-- σ₁ message-schedule function. -/
def ssig1 (x : Nat) : Nat := Nat.xor (rotr 17 x) (Nat.xor (rotr 19 x) (shr 10 x))

/-- Σ₀ compression function. -/
def bsig0 (x : Nat) : Nat := Nat.xor (rotr 2 x) (Nat.xor (rotr 13 x) (rotr 22 x))

/-- Σ₁ compression function. -/
def bsig1 (x : Nat) : Nat := Nat.xor (rotr 6 x) (Nat.xor (rotr 11 x) (rotr 25 x))

/-- Ch(x, y, z). -/
def chW (x y z : Nat) : Nat := Nat.xor (Nat.land x y) (Nat.land (wnot x) z)

/-- Maj(x, y, z). -/
def majW (x y z : Nat) : Nat :=
  Nat.xor (Nat.land x y) (Nat.xor (Nat.land x z) (Nat.land y z))

/-- The eight big-endian bytes of the 64-bit message bit length. -/
def lenBytes (bitLen : Nat) : List Nat :=
  [bitLen / 2^56 % 256, bitLen / 2^48 % 256, bitLen / 2^40 % 256,
   bitLen / 2^32 % 256, bitLen / 2^24 % 256, bitLen / 2^16 % 256,
   bitLen / 2^8 % 256, bitLen % 256]

/-- SHA-256 padding: append `0x80`, zeros to 56 mod 64, then the bit length. -/
def sha256Pad (msg : List Nat) : List Nat :=
  let len := msg.length
  let k := (119 - len % 64) % 64
  msg ++ (0x80 :: List.replicate k 0) ++ lenBytes (8 * len)

/-- Group bytes into big-endian 32-bit words. -/
def toWords : List Nat → List Nat
  | b1 :: b2 :: b3 :: b4 :: rest =>
      (((b1 * 256 + b2) * 256 + b3) * 256 + b4) :: toWords rest
  | _ => []

/-- Group words into 16-word blocks. -/
def toBlocks : List Nat → List (List Nat)
  | w0 :: w1 :: w2 :: w3 :: w4 :: w5 :: w6 :: w7 ::
    w8 :: w9 :: w10 :: w11 :: w12 :: w13 :: w14 :: w15 :: rest =>
      [w0, w1, w2, w3, w4, w5, w6, w7, w8, w9, w10, w11, w12, w13, w14, w15]
        :: toBlocks rest
  | _ => []

/-- One message-schedule step; `ws` holds the schedule so far, newest first. -/
def scheduleStep (ws : List Nat) : Nat :=
  wadd (wadd (ssig1 (ws.getD 1 0)) (ws.getD 6 0))
       (wadd (ssig0 (ws.getD 14 0)) (ws.getD 15 0))

/-- Extend the message schedule by `n` words (input and output newest-first). -/
def buildSchedule : Nat → List Nat → List Nat
  | 0, ws => ws.reverse
  | n + 1, ws => buildSchedule n (scheduleStep ws :: ws)

/-- One round of the SHA-256 compression function on state `[a,…,h]`. -/
def compressStep (st : List Nat) (kw : Nat × Nat) : List Nat :=
  match st with
  | [a, b, c, d, e, f, g, h] =>
      let t1 := wadd h (wadd (bsig1 e) (wadd (chW e f g) (wadd kw.1 kw.2)))
      let t2 := wadd (bsig0 a) (majW a b c)
      [wadd t1 t2, a, b, c, wadd d t1, e, f, g]
  | other => other

/-- Process one 16-word block into the running hash state. -/
def compressBlock (h : List Nat) (block : List Nat) : List Nat :=
  let ws := buildSchedule 48 block.reverse
  let st := (List.zip sha256K ws).foldl compressStep h
  List.zipWith wadd h st

/-- The four big-endian bytes of a 32-bit word. -/
def wordBytes (w : Nat) : List Nat :=
  [w / 16777216 % 256, w / 65536 % 256, w / 256 % 256, w % 256]

/-- SHA-256 digest of a byte string, as its 32 bytes. -/
def sha256Bytes (msg : List Nat) : List Nat :=
  let blocks := toBlocks (toWords (sha256Pad msg))
  (blocks.foldl compressBlock sha256H0).flatMap wordBytes

/-! ## Hex encoding and UTF-8 -/

/-- Lower-case hex digit for `n < 16` (as `encoding/hex` emits). -/
def hexDigit (n : Nat) : Char :=
  if n < 10 then Char.ofNat (48 + n) else Char.ofNat (87 + n)

/-- The two hex characters of one byte. -/
def hexByte (b : Nat) : List Char := [hexDigit (b / 16), hexDigit (b % 16)]

/-- Hex characters of a byte string (Go `hex.EncodeToString`). -/
def hexChars (l : List Nat) : List Char := l.flatMap hexByte

/-- UTF-8 encoding of one character (what Go's `[]byte(string)` produces). -/
def utf8Char (c : Char) : List Nat :=
  let n := c.toNat
  if n < 0x80 then [n]
  else if n < 0x800 then [0xC0 + n / 64, 0x80 + n % 64]
  else if n < 0x10000 then
    [0xE0 + n / 4096, 0x80 + n / 64 % 64, 0x80 + n % 64]
  else
    [0xF0 + n / 262144, 0x80 + n / 4096 % 64, 0x80 + n / 64 % 64, 0x80 + n % 64]

/-- UTF-8 bytes of a string (Go `[]byte(s)`). -/
def utf8Bytes (s : String) : List Nat := s.data.flatMap utf8Char

/-! ## The issue record (`types.Issue`, the fields migrate-hash-ids touches) -/

/-- The fields of `types.Issue` read or written by `migrate_hash_ids.go`:
ID, Title, Description, Design, Notes, AcceptanceCriteria, ExternalRef,
CreatedAt (as Unix nanoseconds), Priority (used only for search ordering). -/
structure MIssue where
  id : String
  title : String
  description : String
  design : String
  notes : String
  acceptance : String
  externalRef : Option String
  createdAtNanos : Int
  priority : Nat
  deriving Repr, DecidableEq

/-! ## `generateHashIDForIssue` and `sha256Hash` (migrate_hash_ids.go:290-312) -/

/-- The string `fmt.Sprintf("%s|%s|%s|%d|%d", title, description, "system",
created_at_nanos, 0)` that `generateHashIDForIssue` hashes. -/
def issueContent (issue : MIssue) : String :=
  issue.title ++ "|" ++ issue.description ++ "|" ++ "system" ++ "|"
    ++ toString issue.createdAtNanos ++ "|" ++ toString (0 : Nat)

/-- `sha256Hash`: SHA-256 of the content, hex of the first 4 bytes
(`hex.EncodeToString(h[:4])`, 8 hex characters). -/
def sha256Hash (content : String) : String :=
  String.mk (hexChars ((sha256Bytes (utf8Bytes content)).take 4))

/-- `generateHashIDForIssue`: prefix, dash, first 8 hex chars of the hash. -/
def generateHashIDForIssue (pfx : String) (issue : MIssue) : String :=
  let hash := sha256Hash (issueContent issue)
  let shortHash := String.mk (hash.data.take 8)
  pfx ++ "-" ++ shortHash

/-! ## `isHashID` (migrate_hash_ids.go:327-344) -/

/-- Not the separator of `strings.SplitN(id, "-", 2)`. -/
def notDash (c : Char) : Bool := c != '-'

/-- `strings.SplitN(id, "-", 2)` on the character list. -/
def splitN2 (l : List Char) : List (List Char) :=
  let pre := l.takeWhile notDash
  match l.dropWhile notDash with
  | [] => [l]
  | _ :: t => [pre, t]

/-- `isHashID`: the suffix after the first dash is non-empty and the regexp
`[a-f]` matches it (it contains a letter between `a` and `f`). -/
def isHashID (id : String) : Bool :=
  match splitN2 id.data with
  | [_, suffix] =>
      if suffix.isEmpty then false
      else suffix.any (fun c => 'a' ≤ c && c ≤ 'f')
  | _ => false

/-! ## `replaceIDReferences` (migrate_hash_ids.go:314-325)

The Go code compiles the regexp `\bbd-\d+(?:\.\d+)*\b` (the prefix `bd` is
hardcoded) and calls `ReplaceAllStringFunc`, replacing each match through the
mapping and keeping matches the mapping does not contain.  RE2's `\b` is an
ASCII word boundary and `\d` is `[0-9]`.  The scanner below reproduces the
leftmost, non-overlapping matching of that particular pattern: at a word
boundary, `bd-` followed by digits, then greedily as many `.digits` groups as
possible; if the character after the last group is a word character the greedy
star backs off one whole group (after which the following `.` is a boundary);
if the character after the bare digit run is a word character there is no
match at this position at all. -/

/-- RE2 `\w` (ASCII): letters, digits, underscore. -/
def isWordChar (c : Char) : Bool := c.isAlphanum || c = '_'

/-- The end-of-match word boundary: end of input or a non-word character. -/
def boundaryOK (l : List Char) : Bool :=
  match l with
  | [] => true
  | c :: _ => !isWordChar c

/-- Consume `(\.\d+)*` greedily, returning the groups (each `.digits`) and the
rest.  Fuel-driven so that it reduces definitionally; called with the input
length as fuel, which every recursive call strictly consumes. -/
def scanGroups : Nat → List Char → List (List Char) × List Char
  | 0, l => ([], l)
  | fuel + 1, '.' :: rest =>
      let ds := rest.takeWhile Char.isDigit
      if ds.isEmpty then ([], '.' :: rest)
      else
        let p := scanGroups fuel (rest.dropWhile Char.isDigit)
        (('.' :: ds) :: p.1, p.2)
  | _ + 1, l => ([], l)

/-- Match `bd-\d+(?:\.\d+)*\b` at the head of `l` (the `\b` before `b` is the
caller's responsibility).  Returns the matched text and the rest. -/
def matchRef (l : List Char) : Option (List Char × List Char) :=
  match l with
  | 'b' :: 'd' :: '-' :: rest =>
      let ds := rest.takeWhile Char.isDigit
      if ds.isEmpty then none
      else
        let rest1 := rest.dropWhile Char.isDigit
        let p := scanGroups rest1.length rest1
        if boundaryOK p.2 then
          some ('b' :: 'd' :: '-' :: (ds ++ p.1.flatten), p.2)
        else
          match p.1.getLast? with
          | some g =>
              some ('b' :: 'd' :: '-' :: (ds ++ p.1.dropLast.flatten), g ++ p.2)
          | none => none
  | _ => none

/-- The replacement scan: walk the text, at each word boundary try the match,
replace through the mapping (`ReplaceAllStringFunc`'s callback keeps matches
not in the mapping), and continue after the match.  `prevWord` records whether
the previous character was a word character.  Fuel-driven (fuel = remaining
length suffices, every step consumes at least one character). -/
def replaceScan : Nat → Bool → List (String × String) → List Char → List Char
  | 0, _, _, l => l
  | _ + 1, _, _, [] => []
  | fuel + 1, prevWord, m, c :: cs =>
      if prevWord then c :: replaceScan fuel (isWordChar c) m cs
      else
        match matchRef (c :: cs) with
        | some (mt, rest) =>
            let s := String.mk mt
            let rep := (List.lookup s m).getD s
            rep.data ++ replaceScan fuel true m rest
        | none => c :: replaceScan fuel (isWordChar c) m cs

/-- `replaceIDReferences(text, mapping)`. -/
def replaceIDReferences (text : String) (m : List (String × String)) : String :=
  String.mk (replaceScan text.data.length false m text.data)

/-! ## `migrateToHashIDs` (migrate_hash_ids.go:189-288)

Go maps are embedded as association lists where an assignment prepends a
binding and `List.lookup` finds the newest one, so later assignments win as
in Go.  The parent-child dependency records the store returns are a list of
`(child issue id, parent id)` pairs. -/

/-- Building `parentMap`: for each issue, every parent-child dependency record
assigns `parentMap[issue.ID] = dep.DependsOnID` (last record wins). -/
def buildParentMap (issues : List MIssue) (deps : List (String × String)) :
    List (String × String) :=
  issues.foldl
    (fun pm issue =>
      (deps.filter (fun d => d.1 == issue.id)).foldl
        (fun pm2 d => (issue.id, d.2) :: pm2) pm)
    []

/-- First pass: hash IDs for issues without a parent. -/
def pass1 (pfx : String) (pm : List (String × String)) :
    List MIssue → List (String × String) → List (String × String)
  | [], m => m
  | issue :: rest, m =>
      match List.lookup issue.id pm with
      | some _ => pass1 pfx pm rest m
      | none => pass1 pfx pm rest ((issue.id, generateHashIDForIssue pfx issue) :: m)

/-- Second pass: hierarchical child IDs `parentHash.N` consuming per-parent
counters; fails like the Go code when the parent is not yet in the mapping. -/
def pass2 (pm : List (String × String)) :
    List MIssue → List (String × String) × List (String × Nat) →
    Except String (List (String × String) × List (String × Nat))
  | [], st => .ok st
  | issue :: rest, (m, cnt) =>
      match List.lookup issue.id pm with
      | none => pass2 pm rest (m, cnt)
      | some parentID =>
          match List.lookup parentID m with
          | none =>
              .error ("parent " ++ parentID ++ " not yet mapped for child " ++ issue.id)
          | some parentHash =>
              let n := (List.lookup parentHash cnt).getD 0 + 1
              pass2 pm rest
                ((issue.id, parentHash ++ "." ++ toString n) :: m, (parentHash, n) :: cnt)

/-- The mapping-generation part of `migrateToHashIDs`: both passes. -/
def genMapping (pfx : String) (issues : List MIssue) (pm : List (String × String)) :
    Except String (List (String × String)) :=
  match pass2 pm issues (pass1 pfx pm issues [], []) with
  | .error e => .error e
  | .ok (m, _) => .ok m

/-- The per-issue text rewriting of the apply loop (the Go code guards design,
notes and acceptance criteria behind non-emptiness checks and the external
ref behind a nil check). -/
def rewriteIssueTexts (m : List (String × String)) (i : MIssue) : MIssue :=
  { i with
    description := replaceIDReferences i.description m
    design := if i.design ≠ "" then replaceIDReferences i.design m else i.design
    notes := if i.notes ≠ "" then replaceIDReferences i.notes m else i.notes
    acceptance :=
      if i.acceptance ≠ "" then replaceIDReferences i.acceptance m else i.acceptance
    externalRef := i.externalRef.map (fun r => replaceIDReferences r m) }

/-- Modelled from the spec: the store's `update_id` (`UpdateIssueID`), whose
implementation is not among the given sources.  Per §4.1 it verifies the new
ID is unused, rewrites the issue row and every referring row inside one
transaction, and fails with `IdInUse` / `NotFound`.  The store is the list of
issue rows; a failure leaves it unchanged. -/
def updateIssueID (store : List MIssue) (oldID newID : String) (updated : MIssue) :
    Except String (List MIssue) :=
  if store.any (fun i => i.id == newID) then .error "IdInUse"
  else if !store.any (fun i => i.id == oldID) then .error "NotFound"
  else .ok (store.map (fun i => if i.id == oldID then { updated with id := newID } else i))

/-- Go's `<` on strings: lexicographic byte order (character order here; the
IDs compared are ASCII, where the two coincide). -/
def goStrLt : List Char → List Char → Bool
  | [], [] => false
  | [], _ :: _ => true
  | _ :: _, [] => false
  | a :: as, b :: bs => if a < b then true else if b < a then false else goStrLt as bs

/-- Insertion sort by issue ID (`sort.Slice(issues, ids ascending)`). -/
def insertByID (i : MIssue) : List MIssue → List MIssue
  | [] => [i]
  | j :: rest =>
      if goStrLt j.id.data i.id.data then j :: insertByID i rest
      else i :: j :: rest

/-- The list of issues sorted by ID, as the apply loop processes them. -/
def sortByID : List MIssue → List MIssue
  | [] => []
  | i :: rest => insertByID i (sortByID rest)

/-- The apply loop of the commit pass: one `UpdateIssueID` per issue, stopping
at the first error.  The returned store keeps the updates already applied —
there is no enclosing transaction in the Go code. -/
def applyMigration (store : List MIssue) (issues : List MIssue)
    (m : List (String × String)) : Except String Unit × List MIssue :=
  match issues with
  | [] => (.ok (), store)
  | issue :: rest =>
      let newID := (List.lookup issue.id m).getD ""
      let updated := rewriteIssueTexts m issue
      match updateIssueID store issue.id newID updated with
      | .error e => (.error e, store)
      | .ok store2 => applyMigration store2 rest m

/-- `migrateToHashIDs(ctx, store, issues, dryRun)`: build the parent map,
generate the mapping, and on a non-dry run apply it to the store in ID order.
The configured `issue_prefix` (default `bd`) is the `pfx` argument. -/
def migrateToHashIDs (pfx : String) (store issues : List MIssue)
    (deps : List (String × String)) (dryRun : Bool) :
    Except String (List (String × String)) × List MIssue :=
  let pm := buildParentMap issues deps
  match genMapping pfx issues pm with
  | .error e => (.error e, store)
  | .ok m =>
      if dryRun then (.ok m, store)
      else
        match applyMigration store (sortByID issues) m with
        | (.ok _, store2) => (.ok m, store2)
        | (.error e, store2) => (.error e, store2)

/-! ## The command driver (migrate_hash_ids.go:36-186) -/

/-- What the `migrate-hash-ids` command reports. -/
inductive MigrateResult where
  | noIssues
  | alreadyMigrated
  | failed (e : String)
  | success (m : List (String × String))
  deriving Repr, DecidableEq

/-- The externally visible outcome of one command run: the store afterwards,
whether the timestamped backup copy of the database was written, whether the
`hash-id-mapping.json` file was written, and the report. -/
structure MigrateOutcome where
  store : List MIssue
  backupWritten : Bool
  mappingFileWritten : Bool
  result : MigrateResult
  deriving Repr, DecidableEq

/-- `migrateHashIDsCmd.Run`: the backup is copied up front unless `--dry-run`;
an empty issue list and an already-migrated first search result (search order:
priority ascending, then created_at ascending) return early; the mapping file
is saved only on a successful non-dry run. -/
def runMigrateCmd (dryRun : Bool) (pfx : String) (store issues : List MIssue)
    (deps : List (String × String)) : MigrateOutcome :=
  let backup := !dryRun
  match issues with
  | [] => ⟨store, backup, false, .noIssues⟩
  | first :: _ =>
      if isHashID first.id then ⟨store, backup, false, .alreadyMigrated⟩
      else
        match migrateToHashIDs pfx store issues deps dryRun with
        | (.error e, store2) => ⟨store2, backup, false, .failed e⟩
        | (.ok m, store2) => ⟨store2, backup, !dryRun, .success m⟩

/-! ## The adaptive identity allocator (spec §4.2; implementation not in the
given sources — only `adaptive_e2e_test.go` exercises it) -/

/-- Modelled from the spec: the adaptive length choice.  The allocator picks
the smallest `L` between `min_hash_length` and `max_hash_length` whose
birthday collision probability is acceptable; the probability test is
abstracted as the predicate `ok` (the conclusion of the claim does not depend
on it).  When no length is acceptable the scan stops at `max_hash_length`. -/
def chooseLengthAux : Nat → Nat → (Nat → Bool) → Nat
  | 0, l, _ => l
  | fuel + 1, l, ok => if ok l then l else chooseLengthAux fuel (l + 1) ok

/-- Modelled from the spec: smallest acceptable length in
`[minL, maxL]`, or `maxL` when none is acceptable. -/
def chooseLength (minL maxL : Nat) (ok : Nat → Bool) : Nat :=
  chooseLengthAux (maxL - minL) minL ok

/-- Modelled from the spec: the candidate ID at length `l` and nonce `n` —
SHA-256 over `(title | description | actor | created_at_nanos | nonce)`,
truncated to `l` hex characters, behind the configured prefix. -/
def candidateID (pfx title desc actor : String) (created : Int) (l n : Nat) : String :=
  pfx ++ "-" ++ String.mk ((hexChars (sha256Bytes (utf8Bytes
    (title ++ "|" ++ desc ++ "|" ++ actor ++ "|" ++ toString created ++ "|"
      ++ toString n)))).take l)

/-- Modelled from the spec: retry up to `retries` nonces at one length,
emitting only an ID that does not collide with an existing one. -/
def allocAtLength (existing : List String) (mk : Nat → Nat → String) (l : Nat) :
    Nat → Nat → Option String
  | 0, _ => none
  | fuel + 1, n =>
      let c := mk l n
      if existing.contains c then allocAtLength existing mk l fuel (n + 1)
      else some c

/-- Modelled from the spec: widen the length by one after the bounded nonce
retries are exhausted, never beyond `max_hash_length`. -/
def allocWiden (existing : List String) (mk : Nat → Nat → String) (retries : Nat) :
    Nat → Nat → Option String
  | 0, _ => none
  | fuel + 1, l =>
      match allocAtLength existing mk l retries 0 with
      | some c => some c
      | none => allocWiden existing mk retries fuel (l + 1)

/-- Modelled from the spec: the identity allocator.  `ok` is the collision
probability test for the current database size, `existing` the IDs already in
the database. -/
def allocateID (existing : List String) (minL maxL retries : Nat)
    (ok : Nat → Bool) (mk : Nat → Nat → String) : Option String :=
  let l0 := chooseLength minL maxL ok
  allocWiden existing mk retries (maxL + 1 - l0) l0

/-! ## Per-parent child counters (spec §3 ChildCounter / §4.2; implementation
not in the given sources — only `child_counters_test.go` exercises it) -/

/-- Modelled from the spec: `getNextChildNumber` — the next child of parent
`P` is `counter(P) + 1`, and the counter is updated to that value.  The
`child_counters` table is an association list parent → counter. -/
def getNextChildNumber (cnt : List (String × Nat)) (p : String) :
    Nat × List (String × Nat) :=
  let n := (List.lookup p cnt).getD 0 + 1
  (n, (p, n) :: cnt)

/-- Modelled from the spec: deleting a child does not touch the counters
("Counters never go backwards even if a child is deleted; gaps are permitted
and stable"). -/
def deleteChildCounters (cnt : List (String × Nat)) (_child : String) :
    List (String × Nat) := cnt

/-- The counter table after the first `n + 1` calls for parent `p` paired with
the value the `(n + 1)`-st call returned. -/
def nthCall (cnt : List (String × Nat)) (p : String) : Nat → Nat × List (String × Nat)
  | 0 => getNextChildNumber cnt p
  | n + 1 => getNextChildNumber (nthCall cnt p n).2 p

/-! ## Issue status and `closed_at` (reopen.go; the store's `UpdateIssue` is
modelled from the spec, its implementation not being among the sources) -/

/-- The four issue statuses. -/
inductive MStatus where
  | opened
  | inProgress
  | blocked
  | closed
  deriving Repr, DecidableEq

/-- The status-bearing part of an issue row. -/
structure IssueState where
  status : MStatus
  closedAt : Option Int
  deriving Repr, DecidableEq

/-- The invariant of spec §8: `closed_at != null ⇔ status = closed`. -/
def closedInv (i : IssueState) : Prop :=
  i.closedAt ≠ none ↔ i.status = MStatus.closed

/-- Modelled from the spec: a status update through the store's `UpdateIssue`
— closing stamps `closed_at`, any transition to a non-closed status clears it
("UpdateIssue automatically clears closed_at when status changes from
closed"). -/
def applyStatusUpdate (i : IssueState) (newStatus : MStatus) (now : Int) : IssueState :=
  { i with
    status := newStatus
    closedAt := if newStatus = MStatus.closed then some now else none }

/-- Modelled from the spec: issue creation with a given status. -/
def newIssueState (st : MStatus) (now : Int) : IssueState :=
  ⟨st, if st = MStatus.closed then some now else none⟩

/-- `reopen.go`: reopening is `UpdateIssue` with `{status: open}`. -/
def reopenIssue (i : IssueState) (now : Int) : IssueState :=
  applyStatusUpdate i MStatus.opened now

/-- `close`: `UpdateIssue` with `{status: closed}` (stamps `closed_at`). -/
def closeIssue (i : IssueState) (now : Int) : IssueState :=
  applyStatusUpdate i MStatus.closed now

/-! ## The watcher's debouncer (spec §4.6; the watcher implementation is not
among the given sources — only the test text in WEBUI_WORKFLOW.md is) -/

/-- Modelled from the spec: the debounce timer.  A change event at time `t`
(with the journal content it wrote) starts the timer for `t + d`; a further
event within the window resets it; the reconciliation callback fires when the
timer expires, observing the content current at that moment.  Events are
given in time order; the result lists the callback firings `(time, content
observed)`. -/
def debounceFirings (d : Nat) : List (Nat × String) → List (Nat × String)
  | [] => []
  | [(t, c)] => [(t + d, c)]
  | (t, c) :: (t', c') :: rest =>
      if t' - t ≤ d then debounceFirings d ((t', c') :: rest)
      else (t + d, c) :: debounceFirings d ((t', c') :: rest)

/-- Event times are non-decreasing. -/
def timesMono : List (Nat × String) → Bool
  | (t, _) :: (t', c') :: rest => decide (t ≤ t') && timesMono ((t', c') :: rest)
  | _ => true

/-- The last event, given a first one (`getLastD`). -/
def lastEvent (e : Nat × String) (es : List (Nat × String)) : Nat × String :=
  es.getLastD e

/-! # Theorems -/

/-! ## C1 — the migration hash ID formula and its determinism -/

/-- Hex-encoding the first `n` bytes is taking the first `2n` hex characters. -/
theorem hexChars_take (n : Nat) (l : List Nat) :
    hexChars (l.take n) = (hexChars l).take (2 * n) := by
  induction l generalizing n with
  | nil => simp [hexChars]
  | cons a l ih =>
    cases n with
    | zero => simp [hexChars]
    | succ n =>
      show hexChars (a :: l.take n) = (hexChars (a :: l)).take (2 * (n + 1))
      rw [Nat.mul_succ]
      simp only [hexChars, List.flatMap_cons] at *
      rw [show hexByte a = [hexDigit (a / 16), hexDigit (a % 16)] from rfl]
      simp only [List.cons_append, List.nil_append]
      rw [show 2 * n + 2 = (2 * n + 1) + 1 from rfl]
      simp [List.take_succ_cons, ih]

/-- C1: the top-level hash ID assigned by migrate-hash-ids equals the
configured prefix, a dash, and the first 8 hex characters of SHA-256 over
`title|description|system|created_at_nanos|0`; it is a deterministic function
of the issue (any issue with the same title, description and creation time
receives the same ID, so two migration runs over the same issue agree). -/
theorem hashID_formula_deterministic (pfx : String) (issue : MIssue) :
    generateHashIDForIssue pfx issue =
      pfx ++ "-" ++ String.mk
        ((hexChars (sha256Bytes (utf8Bytes
          (issue.title ++ "|" ++ issue.description ++ "|" ++ "system" ++ "|"
            ++ toString issue.createdAtNanos ++ "|" ++ "0")))).take 8)
    ∧ ∀ issue2 : MIssue, issue2.title = issue.title →
        issue2.description = issue.description →
        issue2.createdAtNanos = issue.createdAtNanos →
        generateHashIDForIssue pfx issue2 = generateHashIDForIssue pfx issue := by
  constructor
  · simp [generateHashIDForIssue, sha256Hash, hexChars_take 4, List.take_take,
      issueContent, show toString (0 : Nat) = "0" from rfl]
  · intro issue2 h1 h2 h3
    simp [generateHashIDForIssue, sha256Hash, issueContent, h1, h2, h3]

/-- Witness for C1 at a concrete issue: the determinism conjunct applied to
an issue equal in the three hashed fields but different elsewhere. -/
theorem hashID_formula_deterministic_witness :
    generateHashIDForIssue "bd" ⟨"bd-7", "T", "D", "", "x", "", none, 42, 3⟩
      = generateHashIDForIssue "bd" ⟨"bd-1", "T", "D", "", "", "", none, 42, 1⟩ :=
  (hashID_formula_deterministic "bd" ⟨"bd-1", "T", "D", "", "", "", none, 42, 1⟩).2
    ⟨"bd-7", "T", "D", "", "x", "", none, 42, 3⟩ rfl rfl rfl

/-! ## C10 — `isHashID` and the already-migrated check -/

/-- `notDash` in propositional form. -/
theorem notDash_true_iff (c : Char) : notDash c = true ↔ c ≠ '-' := by
  simp [notDash]

/-- Dropping up to the first dash yields nothing or a list headed by a dash. -/
theorem dropWhile_dash (l : List Char) :
    l.dropWhile notDash = [] ∨
    ∃ t, l.dropWhile notDash = '-' :: t ∧ '-' ∈ l := by
  induction l with
  | nil => left; rfl
  | cons a l ih =>
    by_cases ha : a = '-'
    · right
      subst ha
      refine ⟨l, ?_, by simp⟩
      rw [List.dropWhile_cons]
      simp [notDash]
    · rw [List.dropWhile_cons, if_pos (by simp [notDash, ha])]
      rcases ih with h | ⟨t, ht, hm⟩
      · left; exact h
      · right; exact ⟨t, ht, by simp [hm]⟩

/-- If nothing survives the scan to the first dash, there is no dash. -/
theorem no_dash_of_dropWhile_nil (l : List Char)
    (h : l.dropWhile notDash = []) : '-' ∉ l := by
  intro hm
  have := List.dropWhile_eq_nil_iff.mp h '-' hm
  simp [notDash] at this

/-- The characterization half of C10. -/
theorem isHashID_iff (id : String) :
    isHashID id = true ↔
      ('-' ∈ id.data ∧
        (id.data.dropWhile notDash).tail ≠ [] ∧
        ∃ c ∈ (id.data.dropWhile notDash).tail, 'a' ≤ c ∧ c ≤ 'f') := by
  rcases dropWhile_dash id.data with h | ⟨t, ht, hm⟩
  · have := no_dash_of_dropWhile_nil id.data h
    simp [isHashID, splitN2, h, this]
  · simp only [isHashID, splitN2, ht]
    by_cases hte : t = []
    · simp [hte, hm]
    · simp [hte, hm, List.isEmpty_iff, List.any_eq_true]

/-- Scanning for the first dash through dash-free text reaches the dash. -/
theorem dropWhile_append_dash (pre suf : List Char) (hp : ∀ c ∈ pre, c ≠ '-') :
    (pre ++ '-' :: suf).dropWhile notDash = '-' :: suf := by
  induction pre with
  | nil =>
    rw [List.nil_append, List.dropWhile_cons, if_neg (by simp [notDash])]
  | cons a p ih =>
    rw [List.cons_append, List.dropWhile_cons,
      if_pos (by simp [notDash, hp a (by simp)])]
    exact ih (fun c hc => hp c (by simp [hc]))

/-- The digits-only half of C10. -/
theorem digits_only_not_hash (pre suf : List Char) (hp : ∀ c ∈ pre, c ≠ '-')
    (hd : ∀ c ∈ suf, c.isDigit) :
    isHashID (String.mk (pre ++ '-' :: suf)) = false := by
  have hdata : (String.mk (pre ++ '-' :: suf)).data = pre ++ '-' :: suf := rfl
  simp only [isHashID, splitN2, hdata, dropWhile_append_dash pre suf hp]
  by_cases hte : suf = []
  · simp [hte]
  · rw [if_neg (by simp [List.isEmpty_iff, hte]), List.any_eq_false]
    intro c hc
    have h9 : c ≤ '9' := by
      have := hd c hc
      simp [Char.isDigit] at this
      exact this.2
    have hna : ¬ ('a' ≤ c) := fun hle => absurd (le_trans hle h9) (by decide)
    simp [hna]

/-- The command half of C10. -/
theorem already_migrated_iff (dryRun : Bool) (pfx : String)
    (store : List MIssue) (deps : List (String × String))
    (first : MIssue) (rest : List MIssue) :
    (runMigrateCmd dryRun pfx store (first :: rest) deps).result
        = MigrateResult.alreadyMigrated
      ↔ isHashID first.id = true := by
  constructor
  · intro h
    by_contra hni
    simp only [Bool.not_eq_true] at hni
    simp only [runMigrateCmd, hni, Bool.false_eq_true, if_false] at h
    rcases hmig : migrateToHashIDs pfx store (first :: rest) deps dryRun with ⟨r, store2⟩
    cases r with
    | error e => simp [hmig] at h
    | ok m => simp [hmig] at h
  · intro h
    simp [runMigrateCmd, h]

/-- C10: `isHashID` is true exactly when the ID contains a dash whose suffix
(after the first dash) is non-empty and contains a letter in `a`–`f`; the
command reports already-migrated precisely when the first issue of the empty
search has such an ID; and an ID whose post-dash part is all digits is
classified sequential. -/
theorem isHashID_characterization :
    (∀ id : String, isHashID id = true ↔
      ('-' ∈ id.data ∧
        (id.data.dropWhile notDash).tail ≠ [] ∧
        ∃ c ∈ (id.data.dropWhile notDash).tail, 'a' ≤ c ∧ c ≤ 'f'))
    ∧ (∀ (dryRun : Bool) (pfx : String) (store : List MIssue)
        (deps : List (String × String)) (first : MIssue) (rest : List MIssue),
        (runMigrateCmd dryRun pfx store (first :: rest) deps).result
            = MigrateResult.alreadyMigrated
          ↔ isHashID first.id = true)
    ∧ (∀ pre suf : List Char, (∀ c ∈ pre, c ≠ '-') → (∀ c ∈ suf, c.isDigit) →
        isHashID (String.mk (pre ++ '-' :: suf)) = false) :=
  ⟨isHashID_iff,
   fun dryRun pfx store deps first rest =>
     already_migrated_iff dryRun pfx store deps first rest,
   digits_only_not_hash⟩

/-- Witness for C10: a hash-allocated-looking ID whose hex part is all
digits, `bd-1234`, is classified as sequential. -/
theorem isHashID_characterization_witness :
    isHashID (String.mk (['b', 'd'] ++ '-' :: ['1', '2', '3', '4'])) = false :=
  isHashID_characterization.2.2 ['b', 'd'] ['1', '2', '3', '4']
    (by decide) (by decide)

/-! ## C8 — `closed_at` is non-null exactly when the status is closed -/

/-- C8: every modelled store operation that touches the status — a status
update (which subsumes closing and reopening) and creation — maintains
`closed_at != null ⇔ status = closed`; reopening a closed issue sets its
status to open and clears `closed_at`. -/
theorem closedAt_status_inv :
    (∀ (i : IssueState) (newStatus : MStatus) (now : Int),
      closedInv (applyStatusUpdate i newStatus now))
    ∧ (∀ (st : MStatus) (now : Int), closedInv (newIssueState st now))
    ∧ (∀ (i : IssueState) (now : Int),
        (reopenIssue i now).status = MStatus.opened
          ∧ (reopenIssue i now).closedAt = none)
    ∧ (∀ (i : IssueState) (now : Int), closedInv (closeIssue i now)) := by
  refine ⟨fun i newStatus now => ?_, fun st now => ?_, fun i now => ?_,
    fun i now => ?_⟩
  · by_cases h : newStatus = MStatus.closed <;>
      simp [closedInv, applyStatusUpdate, h]
  · by_cases h : st = MStatus.closed <;> simp [closedInv, newIssueState, h]
  · simp [reopenIssue, applyStatusUpdate]
  · simp [closedInv, closeIssue, applyStatusUpdate]

/-! ## C5 — `getNextChildNumber` returns 1, 2, 3, … per parent -/

/-- After `n + 1` calls for parent `p` the returned value and the stored
counter are both `n + 1`. -/
theorem nthCall_lookup (p : String) (n : Nat) :
    (nthCall [] p n).1 = n + 1
      ∧ List.lookup p (nthCall [] p n).2 = some (n + 1) := by
  induction n with
  | zero => constructor <;> simp [nthCall, getNextChildNumber, List.lookup]
  | succ n ih =>
    constructor <;> simp [nthCall, getNextChildNumber, List.lookup, ih.2]

/-- C5: the n-th call of `getNextChildNumber` for a parent returns exactly n;
counters of distinct parents are independent; the returned values are
strictly increasing, so no value is ever returned twice; and deleting a child
leaves the counter where it was, so the next call still returns the next
number. -/
theorem getNextChildNumber_spec :
    (∀ (p : String) (n : Nat), (nthCall [] p n).1 = n + 1)
    ∧ (∀ (cnt : List (String × Nat)) (p q : String), q ≠ p →
        List.lookup q (getNextChildNumber cnt p).2 = List.lookup q cnt)
    ∧ (∀ (p : String) (m n : Nat), m < n →
        (nthCall [] p m).1 < (nthCall [] p n).1)
    ∧ (∀ (p c : String) (n : Nat),
        (getNextChildNumber (deleteChildCounters (nthCall [] p n).2 c) p).1
          = n + 2) := by
  refine ⟨fun p n => (nthCall_lookup p n).1, fun cnt p q hq => ?_,
    fun p m n hmn => ?_, fun p c n => ?_⟩
  · simp only [getNextChildNumber, List.lookup]
    rw [show (q == p) = false by simp [hq]]
  · rw [(nthCall_lookup p m).1, (nthCall_lookup p n).1]; omega
  · simp [deleteChildCounters, getNextChildNumber, (nthCall_lookup p n).2]

/-- Witness for C5 at the parent of the child-counter tests. -/
theorem getNextChildNumber_spec_witness :
    (nthCall [] "bd-af78e9a2" 2).1 = 3
    ∧ List.lookup "bd-af78e9a2.1" (getNextChildNumber [] "bd-af78e9a2").2
        = List.lookup "bd-af78e9a2.1" []
    ∧ (nthCall [] "bd-af78e9a2" 0).1 < (nthCall [] "bd-af78e9a2" 2).1
    ∧ (getNextChildNumber
        (deleteChildCounters (nthCall [] "bd-af78e9a2" 1).2 "bd-af78e9a2.1")
        "bd-af78e9a2").1 = 3 :=
  ⟨getNextChildNumber_spec.1 "bd-af78e9a2" 2,
   getNextChildNumber_spec.2.1 [] "bd-af78e9a2" "bd-af78e9a2.1" (by decide),
   getNextChildNumber_spec.2.2.1 "bd-af78e9a2" 0 2 (by decide),
   getNextChildNumber_spec.2.2.2 "bd-af78e9a2" "bd-af78e9a2.1" 1⟩

/-! ## C9 — debouncing a burst of journal writes -/

/-- In a time-ordered burst the first event time bounds the last. -/
theorem timesMono_head_le_last (e : Nat × String) (es : List (Nat × String))
    (h : timesMono (e :: es) = true) : e.1 ≤ (lastEvent e es).1 := by
  induction es generalizing e with
  | nil => simp [lastEvent]
  | cons e2 es ih =>
    rcases e with ⟨t, c⟩
    rcases e2 with ⟨t2, c2⟩
    simp only [timesMono, Bool.and_eq_true, decide_eq_true_eq] at h
    have h2 := ih ⟨t2, c2⟩ h.2
    simp only [lastEvent, List.getLastD_cons] at *
    omega

/-- A time-ordered burst whose total span is within the debounce window
yields exactly one firing, at the last event plus the window, observing the
last content. -/
theorem debounce_single (d : Nat) (e : Nat × String) (es : List (Nat × String))
    (hmono : timesMono (e :: es) = true)
    (hspan : (lastEvent e es).1 - e.1 ≤ d) :
    debounceFirings d (e :: es)
      = [((lastEvent e es).1 + d, (lastEvent e es).2)] := by
  induction es generalizing e with
  | nil =>
    rcases e with ⟨t, c⟩
    simp [debounceFirings, lastEvent]
  | cons e2 es ih =>
    rcases e with ⟨t, c⟩
    rcases e2 with ⟨t2, c2⟩
    simp only [timesMono, Bool.and_eq_true, decide_eq_true_eq] at hmono
    have hlast : (lastEvent (t, c) ((t2, c2) :: es)) = lastEvent (t2, c2) es :=
      List.getLastD_cons (t, c) (t2, c2) es
    have hle2 := timesMono_head_le_last ⟨t2, c2⟩ es hmono.2
    rw [hlast] at hspan
    have hgap : t2 - t ≤ d := by omega
    rw [debounceFirings, if_pos hgap, hlast]
    exact ih ⟨t2, c2⟩ hmono.2 (by simp only at hspan; omega)

/-- C9: ten writes of the journal within 50 ms, each with different content,
against a 100 ms debounce window produce exactly one reconciliation firing,
and it observes the content of the final write. -/
theorem watcher_debounce (events : List (Nat × String)) (e : Nat × String)
    (es : List (Nat × String)) (hev : events = e :: es)
    (hlen : events.length = 10)
    (hmono : timesMono events = true)
    (hspan : (lastEvent e es).1 - e.1 ≤ 50)
    (hnodup : (events.map Prod.snd).Nodup) :
    debounceFirings 100 events
      = [((lastEvent e es).1 + 100, (lastEvent e es).2)] := by
  subst hev
  exact debounce_single 100 e es hmono (le_trans hspan (by omega))

/-- A concrete burst: ten distinct writes at 5 ms intervals. -/
def burst10 : List (Nat × String) :=
  [(0, "w0"), (5, "w1"), (10, "w2"), (15, "w3"), (20, "w4"),
   (25, "w5"), (30, "w6"), (35, "w7"), (40, "w8"), (45, "w9")]

/-- Witness for C9 on the concrete burst: one firing, final content. -/
theorem watcher_debounce_witness :
    debounceFirings 100 burst10 = [(145, "w9")] :=
  watcher_debounce burst10 (0, "w0") (burst10.tail) rfl rfl (by decide)
    (by decide) (by decide)

/-! ## C4 — hash-part length bounds and allocator uniqueness -/

/-- The compression round preserves the state shape. -/
theorem compressStep_length (st : List Nat) (kw : Nat × Nat) :
    (compressStep st kw).length = st.length := by
  unfold compressStep
  split <;> simp

/-- All 64 rounds preserve the state shape. -/
theorem foldl_compressStep_length (ks : List (Nat × Nat)) (st : List Nat) :
    (ks.foldl compressStep st).length = st.length := by
  induction ks generalizing st with
  | nil => rfl
  | cons k ks ih => rw [List.foldl_cons, ih, compressStep_length]

/-- One block keeps the running hash at 8 words. -/
theorem compressBlock_length (h block : List Nat) (hh : h.length = 8) :
    (compressBlock h block).length = 8 := by
  unfold compressBlock
  rw [List.length_zipWith, foldl_compressStep_length, hh]
  simp

/-- Any number of blocks keeps the running hash at 8 words. -/
theorem foldl_compressBlock_length (blocks : List (List Nat)) (h : List Nat)
    (hh : h.length = 8) : (blocks.foldl compressBlock h).length = 8 := by
  induction blocks generalizing h with
  | nil => exact hh
  | cons b bs ih => exact ih _ (compressBlock_length h b hh)

/-- Serialising the 8 words gives 4 bytes each. -/
theorem flatMap_wordBytes_length (l : List Nat) :
    (l.flatMap wordBytes).length = 4 * l.length := by
  induction l with
  | nil => rfl
  | cons a l ih => simp [wordBytes, ih, List.flatMap_cons]; ring

/-- A SHA-256 digest is 32 bytes. -/
theorem sha256Bytes_length (msg : List Nat) : (sha256Bytes msg).length = 32 := by
  unfold sha256Bytes
  rw [flatMap_wordBytes_length, foldl_compressBlock_length _ _ (by rfl)]

/-- Hex encoding yields two characters per byte. -/
theorem hexChars_length (l : List Nat) : (hexChars l).length = 2 * l.length := by
  induction l with
  | nil => rfl
  | cons a l ih => simp [hexChars, hexByte, List.flatMap_cons] at *; omega

/-- The adaptive length scan stays within `[minL, minL + fuel]`. -/
theorem chooseLengthAux_bounds (fuel l : Nat) (ok : Nat → Bool) :
    l ≤ chooseLengthAux fuel l ok ∧ chooseLengthAux fuel l ok ≤ l + fuel := by
  induction fuel generalizing l with
  | zero => simp [chooseLengthAux]
  | succ fuel ih =>
    unfold chooseLengthAux
    cases h : ok l
    · simp only [h, Bool.false_eq_true, if_false]
      have := ih (l + 1)
      omega
    · simp [h]

/-- The chosen length lies in `[min_hash_length, max_hash_length]`. -/
theorem chooseLength_bounds (minL maxL : Nat) (ok : Nat → Bool)
    (h : minL ≤ maxL) :
    minL ≤ chooseLength minL maxL ok ∧ chooseLength minL maxL ok ≤ maxL := by
  have := chooseLengthAux_bounds (maxL - minL) minL ok
  unfold chooseLength
  omega

/-- A nonce-retry success is fresh and is a candidate at the tried length. -/
theorem allocAtLength_spec (existing : List String) (mk : Nat → Nat → String)
    (l fuel n0 : Nat) (id : String)
    (h : allocAtLength existing mk l fuel n0 = some id) :
    id ∉ existing ∧ ∃ n, id = mk l n := by
  induction fuel generalizing n0 with
  | zero => simp [allocAtLength] at h
  | succ fuel ih =>
    unfold allocAtLength at h
    by_cases hc : existing.contains (mk l n0)
    · simp only [hc, if_true] at h
      exact ih (n0 + 1) h
    · simp only [hc, if_false] at h
      cases h
      exact ⟨by simpa using hc, n0, rfl⟩

/-- A widening success is fresh and its length lies in the widened range. -/
theorem allocWiden_spec (existing : List String) (mk : Nat → Nat → String)
    (retries fuel l0 : Nat) (id : String)
    (h : allocWiden existing mk retries fuel l0 = some id) :
    id ∉ existing ∧ ∃ l n, l0 ≤ l ∧ l < l0 + fuel ∧ id = mk l n := by
  induction fuel generalizing l0 with
  | zero => simp [allocWiden] at h
  | succ fuel ih =>
    unfold allocWiden at h
    rcases ha : allocAtLength existing mk l0 retries 0 with _ | c
    · rw [ha] at h
      rcases ih (l0 + 1) h with ⟨hm, l, n, h1, h2, h3⟩
      exact ⟨hm, l, n, by omega, by omega, h3⟩
    · rw [ha] at h
      cases h
      rcases allocAtLength_spec existing mk l0 retries 0 id ha with ⟨hm, n, hn⟩
      exact ⟨hm, l0, n, le_refl l0, by omega, hn⟩

/-- The length of a candidate ID: prefix, dash, `l` hex characters. -/
theorem candidateID_length (pfx title desc actor : String) (created : Int)
    (l n : Nat) (hl : l ≤ 64) :
    (candidateID pfx title desc actor created l n).length
      = pfx.length + 1 + l := by
  unfold candidateID
  rw [String.length_append, String.length_append]
  have hmk : (String.mk ((hexChars (sha256Bytes (utf8Bytes
      (title ++ "|" ++ desc ++ "|" ++ actor ++ "|" ++ toString created ++ "|"
        ++ toString n)))).take l)).length = min l 64 := by
    show (List.take l _).length = _
    rw [List.length_take, hexChars_length, sha256Bytes_length]
  rw [hmk]
  have : ("-" : String).length = 1 := rfl
  omega

/-- C4: every ID the identity allocator emits has a hash part whose length is
between `min_hash_length` and `max_hash_length` inclusive, and is distinct
from every ID already in the database (so no two top-level IDs with the same
prefix collide). -/
theorem allocator_id_bounds (existing : List String) (minL maxL retries : Nat)
    (ok : Nat → Bool) (pfx title desc actor : String) (created : Int)
    (id : String) (hmin : minL ≤ maxL) (hmax : maxL ≤ 64)
    (halloc : allocateID existing minL maxL retries ok
        (candidateID pfx title desc actor created) = some id) :
    id ∉ existing ∧
    ∃ l n, minL ≤ l ∧ l ≤ maxL ∧
      id = candidateID pfx title desc actor created l n ∧
      id.length = pfx.length + 1 + l := by
  simp only [allocateID] at halloc
  rcases allocWiden_spec existing _ retries _ _ id halloc with ⟨hm, l, n, h1, h2, h3⟩
  have hb := chooseLength_bounds minL maxL ok hmin
  refine ⟨hm, l, n, by omega, by omega, h3, ?_⟩
  rw [h3]
  exact candidateID_length _ _ _ _ _ _ _ (by omega)

/-- Witness for C4: with `min_hash_length = 5` the allocator emits a 5-hex
hash part behind the `test` prefix, fresh in an empty database. -/
theorem allocator_id_bounds_witness :
    "test-2d38d" ∉ ([] : List String) ∧
    ∃ l n, 5 ≤ l ∧ l ≤ 12 ∧
      "test-2d38d" = candidateID "test" "Issue a" "Test" "system" 0 l n ∧
      "test-2d38d".length = "test".length + 1 + l :=
  allocator_id_bounds [] 5 12 10 (fun _ => true) "test" "Issue a" "Test"
    "system" 0 "test-2d38d" (by decide) (by decide) (by decide)

/-! ## C7 — dry run leaves the store and the filesystem untouched -/

/-- C7: with `--dry-run` the command leaves the store exactly as it was,
writes neither the backup nor the mapping file, and any mapping it reports is
the one `genMapping` computes from the issues and dependencies. -/
theorem dry_run_frame (pfx : String) (store issues : List MIssue)
    (deps : List (String × String)) :
    (runMigrateCmd true pfx store issues deps).store = store
    ∧ (runMigrateCmd true pfx store issues deps).backupWritten = false
    ∧ (runMigrateCmd true pfx store issues deps).mappingFileWritten = false
    ∧ (∀ m, (runMigrateCmd true pfx store issues deps).result
          = MigrateResult.success m →
        genMapping pfx issues (buildParentMap issues deps) = .ok m) := by
  cases issues with
  | nil => simp [runMigrateCmd]
  | cons first rest =>
    by_cases hh : isHashID first.id
    · simp [runMigrateCmd, hh]
    · rcases hg : genMapping pfx (first :: rest)
          (buildParentMap (first :: rest) deps) with e | m
      · simp [runMigrateCmd, hh, migrateToHashIDs, hg]
      · simp [runMigrateCmd, hh, migrateToHashIDs, hg]

/-- A concrete one-issue store for the dry-run witness. -/
def wIss : MIssue := ⟨"bd-1", "A", "", "", "", "", none, 100, 1⟩

/-- Witness for C7: a concrete dry run computes the mapping and changes
nothing. -/
theorem dry_run_frame_witness :
    (runMigrateCmd true "bd" [wIss] [wIss] []).store = [wIss]
    ∧ (runMigrateCmd true "bd" [wIss] [wIss] []).backupWritten = false
    ∧ (runMigrateCmd true "bd" [wIss] [wIss] []).mappingFileWritten = false
    ∧ genMapping "bd" [wIss] (buildParentMap [wIss] [])
        = .ok [("bd-1", "bd-c012a9d3")] :=
  ⟨(dry_run_frame "bd" [wIss] [wIss] []).1,
   (dry_run_frame "bd" [wIss] [wIss] []).2.1,
   (dry_run_frame "bd" [wIss] [wIss] []).2.2.1,
   (dry_run_frame "bd" [wIss] [wIss] []).2.2.2 [("bd-1", "bd-c012a9d3")]
     (by decide)⟩

/-! ## C2 — textual reference rewriting and the hardcoded `bd` prefix -/

/-- The reference pattern can start at the head of this text. -/
def startsBdDash : List Char → Bool
  | c1 :: c2 :: c3 :: _ => c1 == 'b' && c2 == 'd' && c3 == '-'
  | _ => false

/-- The text contains the three characters `bd-` consecutively. -/
def containsBdDash : List Char → Bool
  | [] => false
  | c :: cs => startsBdDash (c :: cs) || containsBdDash cs

/-- Where no `bd-` starts, the matcher finds nothing. -/
theorem matchRef_none (l : List Char) (h : startsBdDash l = false) :
    matchRef l = none := by
  unfold matchRef
  split
  · rename_i rest
    simp [startsBdDash] at h
  · rfl

/-- The unfolding equation of the group scanner at a dot. -/
theorem scanGroups_succ_dot (fuel : Nat) (cs : List Char) :
    scanGroups (fuel + 1) ('.' :: cs) =
      if (cs.takeWhile Char.isDigit).isEmpty then ([], '.' :: cs)
      else
        (('.' :: cs.takeWhile Char.isDigit) ::
            (scanGroups fuel (cs.dropWhile Char.isDigit)).1,
         (scanGroups fuel (cs.dropWhile Char.isDigit)).2) := rfl

/-- A store whose configured prefix is `xy`, for the C2 counterexample. -/
def issX1 : MIssue := ⟨"xy-1", "X1", "", "", "", "", none, 1, 1⟩

/-- The second `xy` issue; its description references the first. -/
def issX2 : MIssue := ⟨"xy-2", "X2", "see xy-1", "", "", "", none, 2, 1⟩

/-- C2 counterexample: with configured prefix `xy`, the commit migration maps
`xy-1` to its new hash ID, yet the description text `see xy-1` is left
unchanged — the rewriting regexp hardcodes the `bd` prefix, so the claim
fails for every configured prefix other than `bd`. -/
theorem replace_prefix_counterexample :
    (migrateToHashIDs "xy" [issX1, issX2] [issX1, issX2] [] false).1
        = .ok [("xy-2", "xy-00837d06"), ("xy-1", "xy-0df8fc28")]
    ∧ List.lookup "xy-1" [("xy-2", "xy-00837d06"), ("xy-1", "xy-0df8fc28")]
        = some "xy-0df8fc28"
    ∧ (migrateToHashIDs "xy" [issX1, issX2] [issX1, issX2] [] false).2.map
        MIssue.description = ["", "see xy-1"]
    ∧ replaceIDReferences "see xy-1" [("xy-1", "xy-0df8fc28")] = "see xy-1"
    ∧ "see xy-1" ≠ "see xy-0df8fc28" := by
  refine ⟨rfl, by decide, by decide, by decide, by decide⟩

/-! ### Segmented texts: the universal description of the rewriting

A text is presented as alternating literal chunks and well-formed `bd-`
references.  A literal chunk contains no `bd-` occurrence; a reference is
`bd-` followed by a non-empty digit run and any number of `.digits` groups.
Well-formedness pins down exactly the token boundaries the regexp
`\bbd-\d+(?:\.\d+)*\b` uses: a reference starts at a word boundary and the
text following it starts with a character that is neither a word character
nor a dot.  On every such text and for every mapping, the scan rewrites
exactly the references — through the mapping when present, verbatim when
absent — and copies every literal chunk (in particular all references with
any other prefix) unchanged. -/

/-- One segment of a text: a literal chunk, or a reference given by its
digit run and its `.digits` groups. -/
inductive RefSeg where
  | lit (s : List Char)
  | ref (ds : List Char) (gs : List (List Char))
  deriving Repr, DecidableEq

/-- The text of the `.digits` groups of a reference. -/
def gsRender (gs : List (List Char)) : List Char :=
  (gs.map (fun g => '.' :: g)).flatten

/-- The text of one segment. -/
def segText : RefSeg → List Char
  | .lit s => s
  | .ref ds gs => 'b' :: 'd' :: '-' :: (ds ++ gsRender gs)

/-- The text of a segment list. -/
def segsText (l : List RefSeg) : List Char := (l.map segText).flatten

/-- What the rewriting produces for one segment: literal chunks verbatim,
references through the mapping (kept verbatim when the mapping misses). -/
def segReplace (m : List (String × String)) : RefSeg → List Char
  | .lit s => s
  | .ref ds gs =>
      ((List.lookup (String.mk (segText (.ref ds gs))) m).getD
        (String.mk (segText (.ref ds gs)))).data

/-- The word-character flag after scanning a chunk: that of its last
character, or the incoming flag for an empty chunk. -/
def prevAfter (prev : Bool) (s : List Char) : Bool :=
  match s.getLast? with
  | some c => isWordChar c
  | none => prev

/-- A non-empty run of digits. -/
def digitsOK (ds : List Char) : Bool := !ds.isEmpty && ds.all Char.isDigit

/-- The text after a reference starts with a character that can neither
extend the match nor break the trailing word boundary. -/
def segBoundary : List RefSeg → Bool
  | [] => true
  | .lit (c :: _) :: _ => !isWordChar c && !(c == '.')
  | _ => false

/-- After a literal chunk comes a reference or the end (chunks merge). -/
def litNext : List RefSeg → Bool
  | [] => true
  | .ref _ _ :: _ => true
  | _ => false

/-- Well-formed segmentation, threading the word-character flag. -/
def segsWF : Bool → List RefSeg → Bool
  | _, [] => true
  | prev, .lit s :: rest =>
      !containsBdDash s && litNext rest && segsWF (prevAfter prev s) rest
  | prev, .ref ds gs :: rest =>
      !prev && digitsOK ds && gs.all digitsOK && segBoundary rest
        && segsWF true rest

/-- The scan of the empty text. -/
theorem replaceScan_nil (fuel : Nat) (prev : Bool) (m : List (String × String)) :
    replaceScan fuel prev m [] = [] := by
  cases fuel <;> rfl

/-- A non-word character is not a digit. -/
theorem not_digit_of_not_word (c : Char) (h : isWordChar c = false) :
    Char.isDigit c = false := by
  simp only [isWordChar, Char.isAlphanum, Bool.or_eq_false_iff] at h
  exact h.1.2

/-- A digit run followed by a non-digit splits at the digit scan. -/
theorem digits_split (ds r : List Char) (hds : ∀ c ∈ ds, Char.isDigit c)
    (hr : r = [] ∨ ∃ c t, r = c :: t ∧ Char.isDigit c = false) :
    (ds ++ r).takeWhile Char.isDigit = ds
      ∧ (ds ++ r).dropWhile Char.isDigit = r := by
  induction ds with
  | nil =>
    rcases hr with h | ⟨c, t, hct, hc⟩
    · subst h
      exact ⟨rfl, rfl⟩
    · subst hct
      constructor
      · rw [List.nil_append, List.takeWhile_cons, hc]
        simp
      · rw [List.nil_append, List.dropWhile_cons, hc]
        simp
  | cons d ds ih =>
    have hd : Char.isDigit d = true := hds d (by simp)
    rcases ih (fun c hc => hds c (by simp [hc])) with ⟨h1, h2⟩
    constructor
    · rw [List.cons_append, List.takeWhile_cons, hd]
      simp [h1]
    · rw [List.cons_append, List.dropWhile_cons, hd]
      simpa using h2

/-- The text after a reference: empty, or headed by a safe character. -/
def sufSafe (suf : List Char) : Prop :=
  suf = [] ∨ ∃ c t, suf = c :: t ∧ isWordChar c = false ∧ c ≠ '.'

/-- A safe head is in particular not a digit. -/
theorem sufSafe_nondigit (suf : List Char) (h : sufSafe suf) :
    suf = [] ∨ ∃ c t, suf = c :: t ∧ Char.isDigit c = false := by
  rcases h with h | ⟨c, t, hct, hw, _⟩
  · left; exact h
  · right; exact ⟨c, t, hct, not_digit_of_not_word c hw⟩

/-- The group scanner with no fuel. -/
theorem scanGroups_zero (l : List Char) : scanGroups 0 l = ([], l) := rfl

/-- The group scanner on the empty text. -/
theorem scanGroups_empty (fuel : Nat) : scanGroups fuel [] = ([], []) := by
  cases fuel <;> rfl

/-- The group scanner stops at anything but a dot. -/
theorem scanGroups_not_dot (fuel : Nat) (c : Char) (cs : List Char)
    (hc : c ≠ '.') : scanGroups (fuel + 1) (c :: cs) = ([], c :: cs) := by
  unfold scanGroups
  split
  · rfl
  · rename_i rest heq
    injection heq with h1 h2
    exact absurd h1 hc
  · rfl

/-- The group scanner consumes exactly the well-formed groups and stops at a
safe suffix. -/
theorem scanGroups_render (gs : List (List Char)) (suf : List Char)
    (hgs : ∀ g ∈ gs, g ≠ [] ∧ ∀ c ∈ g, Char.isDigit c)
    (hsuf : sufSafe suf) :
    ∀ fuel : Nat, (gsRender gs ++ suf).length ≤ fuel →
      scanGroups fuel (gsRender gs ++ suf) = (gs.map (fun g => '.' :: g), suf) := by
  induction gs with
  | nil =>
    intro fuel hfuel
    show scanGroups fuel suf = ([], suf)
    rcases hsuf with h | ⟨c, t, hct, hw, hdot⟩
    · subst h
      exact scanGroups_empty fuel
    · subst hct
      cases fuel with
      | zero => exact scanGroups_zero _
      | succ f => exact scanGroups_not_dot f c t hdot
  | cons g gs ih =>
    intro fuel hfuel
    have hg := hgs g (by simp)
    have hrest : (gsRender gs ++ suf) = [] ∨
        ∃ c t, (gsRender gs ++ suf) = c :: t ∧ Char.isDigit c = false := by
      cases gs with
      | nil =>
        simpa [gsRender] using sufSafe_nondigit suf hsuf
      | cons g2 gs2 =>
        right
        refine ⟨'.', g2 ++ (gsRender gs2 ++ suf), ?_, by decide⟩
        simp [gsRender]
    have hsplit := digits_split g (gsRender gs ++ suf) hg.2 hrest
    cases fuel with
    | zero =>
      exfalso
      have : 1 ≤ (gsRender (g :: gs) ++ suf).length := by
        simp [gsRender]
      omega
    | succ f =>
      have hshape : gsRender (g :: gs) ++ suf
          = '.' :: (g ++ (gsRender gs ++ suf)) := by
        simp [gsRender]
      rw [hshape, scanGroups_succ_dot, hsplit.1, hsplit.2]
      rw [if_neg (by simp [List.isEmpty_iff, hg.1])]
      have hf : (gsRender gs ++ suf).length ≤ f := by
        have hg1 : 1 ≤ g.length := by
          cases hgg : g with
          | nil => exact absurd hgg hg.1
          | cons a b => simp
        have : (gsRender (g :: gs) ++ suf).length
            = 1 + g.length + (gsRender gs ++ suf).length := by
          simp [gsRender]
          omega
        omega
      rw [ih (fun g2 hg2 => hgs g2 (by simp [hg2])) f hf]
      simp

/-- A safe suffix satisfies the trailing word boundary. -/
theorem boundaryOK_safe (suf : List Char) (h : sufSafe suf) :
    boundaryOK suf = true := by
  rcases h with h | ⟨c, t, hct, hw, _⟩
  · subst h; rfl
  · subst hct
    simp [boundaryOK, hw]

/-- The unfolding equation of the matcher at a `bd-` head. -/
theorem matchRef_bd (rest : List Char) :
    matchRef ('b' :: 'd' :: '-' :: rest) =
      (let ds := rest.takeWhile Char.isDigit
       if ds.isEmpty then none
       else
         let rest1 := rest.dropWhile Char.isDigit
         let p := scanGroups rest1.length rest1
         if boundaryOK p.2 then
           some ('b' :: 'd' :: '-' :: (ds ++ p.1.flatten), p.2)
         else
           match p.1.getLast? with
           | some g =>
               some ('b' :: 'd' :: '-' :: (ds ++ p.1.dropLast.flatten), g ++ p.2)
           | none => none) := rfl

/-- The matcher recognises exactly a well-formed reference before a safe
suffix. -/
theorem matchRef_wf (ds : List Char) (gs : List (List Char)) (suf : List Char)
    (hds : ds ≠ [] ∧ ∀ c ∈ ds, Char.isDigit c)
    (hgs : ∀ g ∈ gs, g ≠ [] ∧ ∀ c ∈ g, Char.isDigit c)
    (hsuf : sufSafe suf) :
    matchRef (('b' :: 'd' :: '-' :: (ds ++ gsRender gs)) ++ suf)
      = some ('b' :: 'd' :: '-' :: (ds ++ gsRender gs), suf) := by
  have hshape : ('b' :: 'd' :: '-' :: (ds ++ gsRender gs)) ++ suf
      = 'b' :: 'd' :: '-' :: (ds ++ (gsRender gs ++ suf)) := by
    simp
  rw [hshape]
  have hrest : (gsRender gs ++ suf) = [] ∨
      ∃ c t, (gsRender gs ++ suf) = c :: t ∧ Char.isDigit c = false := by
    cases gs with
    | nil => simpa [gsRender] using sufSafe_nondigit suf hsuf
    | cons g2 gs2 =>
      right
      refine ⟨'.', g2 ++ (gsRender gs2 ++ suf), ?_, by decide⟩
      simp [gsRender]
  have hsplit := digits_split ds (gsRender gs ++ suf) hds.2 hrest
  simp only [matchRef_bd]
  rw [hsplit.1, hsplit.2]
  rw [if_neg (by simp [List.isEmpty_iff, hds.1])]
  rw [scanGroups_render gs suf hgs hsuf (gsRender gs ++ suf).length (le_refl _)]
  rw [if_pos (boundaryOK_safe suf hsuf)]
  simp [gsRender]

/-- Threading the word-character flag through one character. -/
theorem prevAfter_cons (prev : Bool) (c : Char) (s : List Char) :
    prevAfter prev (c :: s) = prevAfter (isWordChar c) s := by
  cases s with
  | nil => rfl
  | cons d t =>
    simp only [prevAfter, List.getLast?_cons_cons]
    rcases hg : (d :: t).getLast? with _ | x
    · simp [List.getLast?_eq_none_iff] at hg
    · rfl

/-- No reference can start inside a `bd-`-free chunk, not even straddling
into a following text that begins with `b`. -/
theorem startsBdDash_straddle (pre rest : List Char)
    (hnobd : containsBdDash pre = false)
    (hb : rest = [] ∨ ∃ t, rest = 'b' :: t) (hpre : pre ≠ []) :
    startsBdDash (pre ++ rest) = false := by
  rcases pre with _ | ⟨c1, pre1⟩
  · exact absurd rfl hpre
  rcases pre1 with _ | ⟨c2, pre2⟩
  · rcases hb with h | ⟨t, h⟩ <;> subst h
    · rfl
    · rcases t with _ | ⟨t0, t1⟩
      · simp [startsBdDash]
      · simp [startsBdDash]
  rcases pre2 with _ | ⟨c3, pre3⟩
  · rcases hb with h | ⟨t, h⟩ <;> subst h
    · rfl
    · simp [startsBdDash]
  · simp only [containsBdDash, Bool.or_eq_false_iff] at hnobd
    have h1 := hnobd.1
    simp only [startsBdDash] at h1
    show startsBdDash (c1 :: c2 :: c3 :: (pre3 ++ rest)) = false
    simpa [startsBdDash] using h1

/-- The per-character unfolding equation of the replacement scan. -/
theorem replaceScan_cons (fuel : Nat) (prev : Bool) (m : List (String × String))
    (c : Char) (cs : List Char) :
    replaceScan (fuel + 1) prev m (c :: cs) =
      if prev then c :: replaceScan fuel (isWordChar c) m cs
      else
        match matchRef (c :: cs) with
        | some (mt, rest) =>
            ((List.lookup (String.mk mt) m).getD (String.mk mt)).data
              ++ replaceScan fuel true m rest
        | none => c :: replaceScan fuel (isWordChar c) m cs := rfl

/-- The scan copies a `bd-`-free chunk verbatim and continues behind it. -/
theorem replaceScan_copy (m : List (String × String)) (pre : List Char) :
    ∀ (fuel : Nat) (prev : Bool) (rest : List Char),
      containsBdDash pre = false →
      (rest = [] ∨ ∃ t, rest = 'b' :: t) →
      pre.length + rest.length ≤ fuel →
      replaceScan fuel prev m (pre ++ rest)
        = pre ++ replaceScan (fuel - pre.length) (prevAfter prev pre) m rest := by
  induction pre with
  | nil =>
    intro fuel prev rest _ _ _
    simp [prevAfter]
  | cons c pre ih =>
    intro fuel prev rest hnobd hb hfuel
    simp only [containsBdDash, Bool.or_eq_false_iff] at hnobd
    cases fuel with
    | zero =>
      exfalso
      simp only [List.length_cons] at hfuel
      omega
    | succ f =>
      have hmr : matchRef ((c :: pre) ++ rest) = none :=
        matchRef_none _ (startsBdDash_straddle (c :: pre) rest
          (by simp [containsBdDash, hnobd.1, hnobd.2]) hb (by simp))
      show replaceScan (f + 1) prev m (c :: (pre ++ rest)) = _
      rw [replaceScan_cons]
      by_cases hp : prev
      · rw [if_pos hp, ih f (isWordChar c) rest hnobd.2 hb
          (by simp at hfuel; omega)]
        simp [prevAfter_cons]
      · rw [if_neg hp, show matchRef (c :: (pre ++ rest)) = none from hmr,
          ih f (isWordChar c) rest hnobd.2 hb (by simp at hfuel; omega)]
        simp [prevAfter_cons]

/-- Peeling one segment off a segment list's text. -/
theorem segsText_cons (s : RefSeg) (rest : List RefSeg) :
    segsText (s :: rest) = segText s ++ segsText rest := by
  simp [segsText]

/-- The replacement scan acts segmentwise on every well-formed segmented
text: literal chunks verbatim, references through the mapping. -/
theorem replaceScan_segments (m : List (String × String)) (segs : List RefSeg) :
    ∀ (fuel : Nat) (prev : Bool), (segsText segs).length ≤ fuel →
      segsWF prev segs = true →
      replaceScan fuel prev m (segsText segs)
        = (segs.map (segReplace m)).flatten := by
  induction segs with
  | nil =>
    intro fuel prev _ _
    show replaceScan fuel prev m [] = []
    exact replaceScan_nil fuel prev m
  | cons s rest ih =>
    intro fuel prev hfuel hwf
    rcases s with s | ⟨ds, gs⟩
    · simp only [segsWF, Bool.and_eq_true, Bool.not_eq_true'] at hwf
      rcases hwf with ⟨⟨hnobd, hnext⟩, hwfrest⟩
      have hb : segsText rest = [] ∨ ∃ t, segsText rest = 'b' :: t := by
        cases rest with
        | nil => left; rfl
        | cons s2 rest2 =>
          cases s2 with
          | lit s2l => simp [litNext] at hnext
          | ref ds2 gs2 =>
            right
            exact ⟨'d' :: '-' :: (ds2 ++ (gsRender gs2 ++ segsText rest2)),
              by simp [segsText_cons, segText]⟩
      rw [segsText_cons] at hfuel ⊢
      simp only [segText] at hfuel ⊢
      rw [replaceScan_copy m s fuel prev (segsText rest) hnobd hb
        (by simp at hfuel ⊢; omega)]
      rw [ih (fuel - s.length) (prevAfter prev s)
        (by simp at hfuel; omega) hwfrest]
      simp [segReplace]
    · simp only [segsWF, Bool.and_eq_true, Bool.not_eq_true'] at hwf
      rcases hwf with ⟨⟨⟨⟨hprev, hds⟩, hgs⟩, hbound⟩, hwfrest⟩
      have hds' : ds ≠ [] ∧ ∀ c ∈ ds, Char.isDigit c := by
        constructor
        · intro h
          subst h
          simp [digitsOK] at hds
        · have := hds
          simp only [digitsOK, Bool.and_eq_true, List.all_eq_true] at this
          exact fun c hc => this.2 c hc
      have hgs' : ∀ g ∈ gs, g ≠ [] ∧ ∀ c ∈ g, Char.isDigit c := by
        intro g hg
        have hgone := (List.all_eq_true.mp hgs) g hg
        constructor
        · intro h
          subst h
          simp [digitsOK] at hgone
        · have := hgone
          simp only [digitsOK, Bool.and_eq_true, List.all_eq_true] at this
          exact fun c hc => this.2 c hc
      have hsuf : sufSafe (segsText rest) := by
        cases rest with
        | nil => left; rfl
        | cons s2 rest2 =>
          cases s2 with
          | lit s2l =>
            cases s2l with
            | nil => simp [segBoundary] at hbound
            | cons c2 t2 =>
              right
              simp only [segBoundary, Bool.and_eq_true,
                Bool.not_eq_true'] at hbound
              refine ⟨c2, t2 ++ segsText rest2, ?_, hbound.1,
                by simpa using hbound.2⟩
              simp [segsText_cons, segText]
          | ref ds2 gs2 => simp [segBoundary] at hbound
      rw [segsText_cons] at hfuel ⊢
      simp only [segText] at hfuel ⊢
      cases fuel with
      | zero =>
        exfalso
        simp at hfuel
      | succ f =>
        have hmr := matchRef_wf ds gs (segsText rest) hds' hgs' hsuf
        rw [List.cons_append, List.cons_append, List.cons_append] at hmr ⊢
        rw [replaceScan_cons, if_neg (by simp [hprev])]
        simp only [hmr]
        rw [ih f true (by simp at hfuel; omega) hwfrest]
        simp [segReplace, segText]

/-- C2 amended: the rewriting applies only to references of the hardcoded
form `bd-<digits>(.<digits>)*` — on every well-formed segmented text and for
every mapping, each such reference is rewritten through the mapping when the
mapping contains it and kept verbatim when it does not, and every literal
chunk — in particular every reference carrying any other configured prefix —
is copied unchanged. -/
theorem replaceIDReferences_amended (m : List (String × String))
    (segs : List RefSeg) (hwf : segsWF false segs = true) :
    replaceIDReferences (String.mk (segsText segs)) m
      = String.mk ((segs.map (segReplace m)).flatten) := by
  show String.mk (replaceScan (segsText segs).length false m (segsText segs))
      = _
  rw [replaceScan_segments m segs (segsText segs).length false (le_refl _) hwf]

/-- The witness segmentation: a mapped `bd` reference, an `xy` reference
inside a literal chunk, and an unmapped `bd` reference, all in one text. -/
def wSegs : List RefSeg :=
  [RefSeg.lit "see ".data, RefSeg.ref ['2'] [],
   RefSeg.lit " and xy-1, also ".data, RefSeg.ref ['9', '9'] []]

/-- The witness mapping: it contains `bd-2` but not `bd-99` or `xy-1`. -/
def wMap : List (String × String) := [("bd-2", "bd-aaaa1111")]

/-- Witness for the amended C2: in one text, the mapped `bd-2` is rewritten,
while the other-prefix `xy-1` and the unmapped `bd-99` stay unchanged. -/
theorem replaceIDReferences_amended_witness :
    replaceIDReferences (String.mk (segsText wSegs)) wMap
      = String.mk ((wSegs.map (segReplace wMap)).flatten)
    ∧ String.mk (segsText wSegs) = "see bd-2 and xy-1, also bd-99"
    ∧ String.mk ((wSegs.map (segReplace wMap)).flatten)
      = "see bd-aaaa1111 and xy-1, also bd-99" :=
  ⟨replaceIDReferences_amended wMap wSegs (by decide), by decide, by decide⟩

/-! ## C3 — the commit pass is not atomic -/

/-- The unfolding equation of the apply loop. -/
theorem applyMigration_cons (store : List MIssue) (x : MIssue) (xs : List MIssue)
    (m : List (String × String)) :
    applyMigration store (x :: xs) m =
      match updateIssueID store x.id ((List.lookup x.id m).getD "")
          (rewriteIssueTexts m x) with
      | .error e => (.error e, store)
      | .ok store2 => applyMigration store2 xs m := rfl

/-- The apply loop processes its issue list left to right. -/
theorem applyMigration_append (store : List MIssue) (xs ys : List MIssue)
    (m : List (String × String)) :
    applyMigration store (xs ++ ys) m =
      match applyMigration store xs m with
      | (.ok _, store1) => applyMigration store1 ys m
      | (.error e, store1) => (.error e, store1) := by
  induction xs generalizing store with
  | nil => rfl
  | cons x xs ih =>
    rw [List.cons_append, applyMigration_cons, applyMigration_cons]
    rcases hu : updateIssueID store x.id ((List.lookup x.id m).getD "")
        (rewriteIssueTexts m x) with e | store2
    · rfl
    · exact ih store2

/-- First issue of the C3 counterexample store: `bd-1`. -/
def cA : MIssue := ⟨"bd-1", "A", "", "", "", "", none, 100, 1⟩

/-- Second issue: `bd-2`, whose migration hash is `bd-2f1374ff`. -/
def cB : MIssue := ⟨"bd-2", "B", "", "", "", "", none, 200, 1⟩

/-- Third issue, whose ID happens to equal `bd-2`'s migration hash. -/
def cC : MIssue := ⟨"bd-2f1374ff", "C", "", "", "", "", none, 300, 2⟩

/-- C3 counterexample: on this store the commit pass renames `bd-1`, then
fails on `bd-2` (its hash ID is already taken by the third issue) — the
returned store is partially migrated, not the store as it was before the
pass. -/
theorem commit_not_atomic_counterexample :
    (migrateToHashIDs "bd" [cA, cB, cC] [cA, cB, cC] [] false).1
        = .error "IdInUse"
    ∧ (migrateToHashIDs "bd" [cA, cB, cC] [cA, cB, cC] [] false).2
        ≠ [cA, cB, cC]
    ∧ (migrateToHashIDs "bd" [cA, cB, cC] [cA, cB, cC] [] false).2.map
        MIssue.id = ["bd-c012a9d3", "bd-2", "bd-2f1374ff"] :=
  ⟨rfl, by decide, by decide⟩

/-- C3 amended: the commit pass applies one `UpdateIssueID` per issue in ID
order with no enclosing transaction; when an update fails, the pass stops and
the store keeps exactly the updates already applied — the issues before the
failing one remain renamed (the pre-migration state survives only in the
backup file taken before the pass).  The second conjunct lifts this to the
commit entry point itself: whenever the sorted issue list splits as
`xs ++ y :: ys` with the updates over `xs` succeeding and the update of `y`
failing, `migrateToHashIDs` on its generated mapping returns the error
together with the partially migrated store. -/
theorem commit_pass_partial (store : List MIssue) (xs : List MIssue)
    (y : MIssue) (ys : List MIssue) (m : List (String × String))
    (store1 : List MIssue) (e : String)
    (hxs : applyMigration store xs m = (.ok (), store1))
    (hy : updateIssueID store1 y.id ((List.lookup y.id m).getD "")
        (rewriteIssueTexts m y) = .error e) :
    applyMigration store (xs ++ y :: ys) m = (.error e, store1)
    ∧ ∀ (pfx : String) (issues : List MIssue) (deps : List (String × String)),
        sortByID issues = xs ++ y :: ys →
        genMapping pfx issues (buildParentMap issues deps) = .ok m →
        migrateToHashIDs pfx store issues deps false = (.error e, store1) := by
  have h1 : applyMigration store (xs ++ y :: ys) m = (.error e, store1) := by
    rw [applyMigration_append, hxs]
    show applyMigration store1 (y :: ys) m = _
    rw [applyMigration_cons, hy]
  refine ⟨h1, fun pfx issues deps hsort hg => ?_⟩
  simp only [migrateToHashIDs, hg, Bool.false_eq_true, if_false, hsort, h1]

/-- The first counterexample issue after its rename to its hash ID. -/
def cA9 : MIssue := ⟨"bd-c012a9d3", "A", "", "", "", "", none, 100, 1⟩

/-- The mapping `genMapping` generates for the store `[cA, cB, cC]` (the hash
IDs of the three issues, computed by the embedded SHA-256). -/
def cMap : List (String × String) :=
  [("bd-2f1374ff", "bd-479de726"), ("bd-2", "bd-2f1374ff"),
   ("bd-1", "bd-c012a9d3")]

/-- Witness for the amended C3, on the real mapping `genMapping` produces:
renaming `bd-1` succeeds, renaming `bd-2` fails with `IdInUse`, and both the
apply loop and `migrateToHashIDs` itself return the partially migrated
store. -/
theorem commit_pass_partial_witness :
    applyMigration [cA, cB, cC] ([cA] ++ cB :: [cC]) cMap
      = (.error "IdInUse", [cA9, cB, cC])
    ∧ migrateToHashIDs "bd" [cA, cB, cC] [cA, cB, cC] [] false
      = (.error "IdInUse", [cA9, cB, cC]) :=
  have h := commit_pass_partial [cA, cB, cC] [cA] cB [cC] cMap
    [cA9, cB, cC] "IdInUse" rfl rfl
  ⟨h.1, h.2 "bd" [cA, cB, cC] [] rfl rfl⟩

/-! ## C6 — child suffixes follow the processing order, not creation order -/

/-- The issues are ordered as the empty search returns them: priority
ascending, then created_at ascending (spec §4.1 Filters). -/
def searchOrdered : List MIssue → Bool
  | i :: j :: rest =>
      (decide (i.priority < j.priority) ||
        (decide (i.priority = j.priority) &&
          decide (i.createdAtNanos ≤ j.createdAtNanos))) &&
        searchOrdered (j :: rest)
  | _ => true

/-- A top-level parent epic, `bd-1`, hashing to `bd-50f50430`. -/
def mP : MIssue := ⟨"bd-1", "P", "", "", "", "", none, 0, 1⟩

/-- The earlier-created child of `bd-1` (priority 1). -/
def mC1 : MIssue := ⟨"bd-2", "C1", "", "", "", "", none, 10, 1⟩

/-- The later-created child of `bd-1`, at a more urgent priority 0, so the
search returns it first. -/
def mC2 : MIssue := ⟨"bd-3", "C2", "", "", "", "", none, 20, 0⟩

/-- Parent-child dependency records: `bd-2` and `bd-3` are children of
`bd-1`. -/
def mDeps : List (String × String) := [("bd-2", "bd-1"), ("bd-3", "bd-1")]

/-- A top-level parent for the topological half of the counterexample. -/
def tP : MIssue := ⟨"bd-1", "P", "", "", "", "", none, 0, 0⟩

/-- A grandchild (child of `bd-2`) that the search returns before its
parent. -/
def tG : MIssue := ⟨"bd-3", "G", "", "", "", "", none, 20, 1⟩

/-- The middle issue: child of `bd-1`, parent of `bd-3`. -/
def tC : MIssue := ⟨"bd-2", "C", "", "", "", "", none, 10, 2⟩

/-- Dependencies of the nested hierarchy `bd-1 ← bd-2 ← bd-3`. -/
def tDeps : List (String × String) := [("bd-2", "bd-1"), ("bd-3", "bd-2")]

/-- C6 counterexample: on a legitimately search-ordered issue list (priority
ascending, then created_at), the child created first (`bd-2`, t=10) receives
suffix `.2` while the child created later (`bd-3`, t=20, but more urgent)
receives `.1` — suffixes follow list order, not creation order.  And on a
search-ordered nested hierarchy the single mapping pass is no topological
walk: a grandchild ordered before its parent makes the migration fail. -/
theorem child_creation_order_counterexample :
    searchOrdered [mC2, mP, mC1] = true
    ∧ mC1.createdAtNanos < mC2.createdAtNanos
    ∧ genMapping "bd" [mC2, mP, mC1] (buildParentMap [mC2, mP, mC1] mDeps)
        = .ok [("bd-2", "bd-50f50430.2"), ("bd-3", "bd-50f50430.1"),
               ("bd-1", "bd-50f50430")]
    ∧ List.lookup mC1.id
        [("bd-2", "bd-50f50430.2"), ("bd-3", "bd-50f50430.1"),
         ("bd-1", "bd-50f50430")]
        = some ("bd-50f50430" ++ "." ++ toString (2 : Nat))
    ∧ List.lookup mC2.id
        [("bd-2", "bd-50f50430.2"), ("bd-3", "bd-50f50430.1"),
         ("bd-1", "bd-50f50430")]
        = some ("bd-50f50430" ++ "." ++ toString (1 : Nat))
    ∧ ¬ (2 : Nat) < 1
    ∧ searchOrdered [tP, tG, tC] = true
    ∧ genMapping "bd" [tP, tG, tC] (buildParentMap [tP, tG, tC] tDeps)
        = .error "parent bd-2 not yet mapped for child bd-3" :=
  ⟨by decide, by decide, rfl, by decide, by decide, by decide, by decide, rfl⟩

/-- The per-issue step of the second pass, stated as an equation. -/
theorem pass2_cons (pm : List (String × String)) (issue : MIssue)
    (rest : List MIssue) (m : List (String × String))
    (cnt : List (String × Nat)) :
    pass2 pm (issue :: rest) (m, cnt) =
      match List.lookup issue.id pm with
      | none => pass2 pm rest (m, cnt)
      | some parentID =>
          match List.lookup parentID m with
          | none =>
              .error ("parent " ++ parentID ++ " not yet mapped for child "
                ++ issue.id)
          | some parentHash =>
              pass2 pm rest
                ((issue.id, parentHash ++ "."
                    ++ toString ((List.lookup parentHash cnt).getD 0 + 1)) :: m,
                 (parentHash, (List.lookup parentHash cnt).getD 0 + 1) :: cnt)
      := rfl

/-- The second pass processes its issue list left to right. -/
theorem pass2_append (pm : List (String × String)) (xs ys : List MIssue)
    (st : List (String × String) × List (String × Nat)) :
    pass2 pm (xs ++ ys) st =
      match pass2 pm xs st with
      | .ok st2 => pass2 pm ys st2
      | .error e => .error e := by
  induction xs generalizing st with
  | nil => rfl
  | cons x xs ih =>
    rcases st with ⟨m, cnt⟩
    rw [List.cons_append, pass2_cons, pass2_cons]
    rcases hx : List.lookup x.id pm with _ | parentID
    · exact ih (m, cnt)
    · rcases hm : List.lookup parentID m with _ | ph
      · simp only [hm]
      · simp only [hm]
        exact ih _

/-- A binding whose key is no processed child's ID survives the second
pass. -/
theorem pass2_lookup_some_mono (pm : List (String × String))
    (run : List MIssue) (m : List (String × String))
    (cnt : List (String × Nat)) (m' : List (String × String))
    (cnt' : List (String × Nat)) (k v : String)
    (hrun : pass2 pm run (m, cnt) = .ok (m', cnt'))
    (hk : List.lookup k m = some v)
    (hkeep : ∀ i ∈ run, List.lookup i.id pm ≠ none → i.id ≠ k) :
    List.lookup k m' = some v := by
  induction run generalizing m cnt with
  | nil =>
    injection hrun with h
    injection h with h1 h2
    subst h1
    exact hk
  | cons x rest ih =>
    rw [pass2_cons] at hrun
    rcases hx : List.lookup x.id pm with _ | parentID
    · simp only [hx] at hrun
      exact ih m cnt hrun hk (fun i hi => hkeep i (by simp [hi]))
    · simp only [hx] at hrun
      rcases hm : List.lookup parentID m with _ | ph
      · simp only [hm] at hrun
        cases hrun
      · simp only [hm] at hrun
        have hxk : x.id ≠ k := hkeep x (by simp) (by simp [hx])
        refine ih _ _ hrun ?_ (fun i hi => hkeep i (by simp [hi]))
        simp only [List.lookup]
        rw [show (k == x.id) = false by simp [Ne.symm hxk]]
        exact hk

/-- A parent's counter never decreases across the second pass. -/
theorem pass2_cnt_mono (pm : List (String × String)) (run : List MIssue)
    (m : List (String × String)) (cnt : List (String × Nat))
    (m' : List (String × String)) (cnt' : List (String × Nat)) (hkey : String)
    (hrun : pass2 pm run (m, cnt) = .ok (m', cnt')) :
    (List.lookup hkey cnt).getD 0 ≤ (List.lookup hkey cnt').getD 0 := by
  induction run generalizing m cnt with
  | nil =>
    injection hrun with h
    injection h with h1 h2
    subst h2
    exact le_refl _
  | cons x rest ih =>
    rw [pass2_cons] at hrun
    rcases hx : List.lookup x.id pm with _ | parentID
    · simp only [hx] at hrun
      exact ih m cnt hrun
    · simp only [hx] at hrun
      rcases hm : List.lookup parentID m with _ | ph
      · simp only [hm] at hrun
        cases hrun
      · simp only [hm] at hrun
        refine le_trans ?_ (ih _ _ hrun)
        by_cases hph : hkey = ph
        · subst hph
          simp [List.lookup]
        · simp only [List.lookup]
          rw [show (hkey == ph) = false by simp [hph]]

/-- C6 amended: the children of a top-level parent are numbered `.1`, `.2`, …
in the order the issue list presents them (the search order: priority
ascending then created_at — creation order only among equal priorities): for
any two children of the same top-level parent, the one earlier in the list
receives the strictly smaller suffix.  The pass is a single left-to-right
sweep, not a topological walk; a child whose parent is not yet mapped makes
it fail. -/
theorem child_suffixes_in_list_order
    (pfx : String) (pm m : List (String × String))
    (xs ys zs : List MIssue) (c1 c2 : MIssue) (parentID : String)
    (hnd : ((xs ++ c1 :: (ys ++ c2 :: zs)).map (fun i => i.id)).Nodup)
    (hp1 : List.lookup c1.id pm = some parentID)
    (hp2 : List.lookup c2.id pm = some parentID)
    (hptop : List.lookup parentID pm = none)
    (hrun : genMapping pfx (xs ++ c1 :: (ys ++ c2 :: zs)) pm = .ok m) :
    ∃ (ph : String) (n1 n2 : Nat),
      List.lookup c1.id m = some (ph ++ "." ++ toString n1)
      ∧ List.lookup c2.id m = some (ph ++ "." ++ toString n2)
      ∧ n1 < n2 := by
  simp only [List.map_append, List.map_cons] at hnd
  have hright := (List.nodup_append.mp hnd).2.1
  rcases List.nodup_cons.mp hright with ⟨hc1nm, hrest⟩
  have hc1ys : c1.id ∉ ys.map (fun i => i.id) := fun h => hc1nm (by simp [h])
  have hc1c2 : c1.id ≠ c2.id := fun h => hc1nm (by simp [h])
  have hc1zs : c1.id ∉ zs.map (fun i => i.id) := fun h => hc1nm (by simp [h])
  have hc2zs : c2.id ∉ zs.map (fun i => i.id) := by
    have h2 := (List.nodup_append.mp hrest).2.1
    exact (List.nodup_cons.mp h2).1
  have hpar_ne : ∀ i : MIssue, List.lookup i.id pm ≠ none → i.id ≠ parentID :=
    fun i hpmi h => by
      rw [h] at hpmi
      exact hpmi hptop
  have hne1 : parentID ≠ c1.id := fun h => by
    rw [h] at hptop
    rw [hptop] at hp1
    cases hp1
  unfold genMapping at hrun
  rcases hP : pass2 pm (xs ++ c1 :: (ys ++ c2 :: zs))
      (pass1 pfx pm (xs ++ c1 :: (ys ++ c2 :: zs)) [], []) with e | st
  · rw [hP] at hrun
    cases hrun
  rw [hP] at hrun
  rcases st with ⟨mF, cntF⟩
  injection hrun with hmF
  subst hmF
  rw [pass2_append] at hP
  rcases hA : pass2 pm xs
      (pass1 pfx pm (xs ++ c1 :: (ys ++ c2 :: zs)) [], []) with e | stA
  · simp only [hA] at hP
    cases hP
  rcases stA with ⟨mA, cntA⟩
  simp only [hA] at hP
  rw [pass2_cons] at hP
  simp only [hp1] at hP
  rcases hB : List.lookup parentID mA with _ | ph
  · simp only [hB] at hP
    cases hP
  simp only [hB] at hP
  rw [pass2_append] at hP
  rcases hC : pass2 pm ys
      ((c1.id, ph ++ "." ++ toString ((List.lookup ph cntA).getD 0 + 1)) :: mA,
       (ph, (List.lookup ph cntA).getD 0 + 1) :: cntA) with e | stC
  · simp only [hC] at hP
    cases hP
  rcases stC with ⟨mC, cntC⟩
  simp only [hC] at hP
  have hBmB : List.lookup parentID
      ((c1.id, ph ++ "." ++ toString ((List.lookup ph cntA).getD 0 + 1)) :: mA)
      = some ph := by
    simp only [List.lookup]
    rw [show (parentID == c1.id) = false by simp [hne1]]
    exact hB
  have hBmC : List.lookup parentID mC = some ph :=
    pass2_lookup_some_mono pm ys _ _ mC cntC parentID ph hC hBmB
      (fun i _ hpmi => hpar_ne i hpmi)
  rw [pass2_cons] at hP
  simp only [hp2, hBmC] at hP
  have hv1B : List.lookup c1.id
      ((c1.id, ph ++ "." ++ toString ((List.lookup ph cntA).getD 0 + 1)) :: mA)
      = some (ph ++ "." ++ toString ((List.lookup ph cntA).getD 0 + 1)) := by
    simp [List.lookup]
  have hv1C : List.lookup c1.id mC
      = some (ph ++ "." ++ toString ((List.lookup ph cntA).getD 0 + 1)) :=
    pass2_lookup_some_mono pm ys _ _ mC cntC c1.id _ hC hv1B
      (fun i hi _ h => hc1ys (h ▸ List.mem_map_of_mem (fun i => i.id) hi))
  have hv1D : List.lookup c1.id
      ((c2.id, ph ++ "." ++ toString ((List.lookup ph cntC).getD 0 + 1)) :: mC)
      = some (ph ++ "." ++ toString ((List.lookup ph cntA).getD 0 + 1)) := by
    simp only [List.lookup]
    rw [show (c1.id == c2.id) = false by simp [hc1c2]]
    exact hv1C
  have hv1 : List.lookup c1.id mF
      = some (ph ++ "." ++ toString ((List.lookup ph cntA).getD 0 + 1)) :=
    pass2_lookup_some_mono pm zs _ _ mF cntF c1.id _ hP hv1D
      (fun i hi _ h => hc1zs (h ▸ List.mem_map_of_mem (fun i => i.id) hi))
  have hv2D : List.lookup c2.id
      ((c2.id, ph ++ "." ++ toString ((List.lookup ph cntC).getD 0 + 1)) :: mC)
      = some (ph ++ "." ++ toString ((List.lookup ph cntC).getD 0 + 1)) := by
    simp [List.lookup]
  have hv2 : List.lookup c2.id mF
      = some (ph ++ "." ++ toString ((List.lookup ph cntC).getD 0 + 1)) :=
    pass2_lookup_some_mono pm zs _ _ mF cntF c2.id _ hP hv2D
      (fun i hi _ h => hc2zs (h ▸ List.mem_map_of_mem (fun i => i.id) hi))
  have hmono : (List.lookup ph
        ((ph, (List.lookup ph cntA).getD 0 + 1) :: cntA)).getD 0
      ≤ (List.lookup ph cntC).getD 0 :=
    pass2_cnt_mono pm ys _ _ mC cntC ph hC
  have hheadB : (List.lookup ph
        ((ph, (List.lookup ph cntA).getD 0 + 1) :: cntA)).getD 0
      = (List.lookup ph cntA).getD 0 + 1 := by
    simp [List.lookup]
  refine ⟨ph, (List.lookup ph cntA).getD 0 + 1,
    (List.lookup ph cntC).getD 0 + 1, hv1, hv2, ?_⟩
  omega

/-- Witness for the amended C6: in the list `[mP, mC1, mC2]` the first-listed
child `bd-2` gets the smaller suffix. -/
theorem child_suffixes_in_list_order_witness :
    ∃ (ph : String) (n1 n2 : Nat),
      List.lookup mC1.id
          [("bd-3", "bd-50f50430.2"), ("bd-2", "bd-50f50430.1"),
           ("bd-1", "bd-50f50430")]
        = some (ph ++ "." ++ toString n1)
      ∧ List.lookup mC2.id
          [("bd-3", "bd-50f50430.2"), ("bd-2", "bd-50f50430.1"),
           ("bd-1", "bd-50f50430")]
        = some (ph ++ "." ++ toString n2)
      ∧ n1 < n2 :=
  child_suffixes_in_list_order "bd" (buildParentMap [mP, mC1, mC2] mDeps)
    [("bd-3", "bd-50f50430.2"), ("bd-2", "bd-50f50430.1"),
     ("bd-1", "bd-50f50430")]
    [mP] [] [] mC1 mC2 "bd-1" (by decide) (by decide) (by decide) (by decide)
    rfl

end Beads
